import Mathlib

/-!
Verification of the CipherGUI file-processing core (`src/cipher_utils.cpp`,
`src/cipher_utils.h`, and the compare workflow in `src/jay_gui.cpp`).

Byte contents are modelled as `List Nat` with every byte `< 256` (the C++
`unsigned char`).  The filesystem is modelled as an association list from
paths (lists of components) to entries (regular file with content, or
directory), together with an append-only log mirroring `history.md`.
`float` percentages are modelled by exact rational arithmetic; the GUI
loads at most 50000 bytes per side (`MAX_TEXT_COMPARE_DISPLAY_CHARS`), far
below the 2^25 threshold at which IEEE-754 single rounding could make a
non-trivial ratio collapse to 1, so the rational model and the float agree
on the `= 100` test.
-/

namespace CipherUtils

/-- `cipher_utils.h`: `constexpr int MIN_PEG = 1`. -/
def MIN_PEG : Int := 1

/-- `cipher_utils.h`: `constexpr int MAX_PEG = 255`. -/
def MAX_PEG : Int := 255

/-- `cipher_utils.h`: `constexpr size_t BUFFER_SIZE = 4096`. -/
def BUFFER_SIZE : Nat := 4096

/-- `cipher_utils.cpp`: `PRIVATE_VAULT_DIR = ".private_vault"`. -/
def PRIVATE_VAULT_DIR : String := ".private_vault"

/-- C++ `%` on `int` truncates toward zero: `Int.tmod`. -/
def cppRem (a b : Int) : Int := Int.tmod a b

/-- `static_cast<unsigned char>(v)`: the value modulo 2^8, as a byte. -/
def toUChar (v : Int) : Nat := (v % 256).toNat

/-- One byte of the Caesar transform, from `process_content_caesar` /
`process_file_core`: encrypt is `(uc + pegs) % 256`, decrypt is
`(uc - pegs + 256) % 256`, computed in C++ `int` arithmetic and cast back
to `unsigned char`. -/
def caesarByte (pegs : Int) (encrypt_mode : Bool) (uc : Nat) : Nat :=
  if encrypt_mode then toUChar (cppRem ((uc : Int) + pegs) 256)
  else toUChar (cppRem ((uc : Int) - pegs + 256) 256)

/-- `process_content_caesar` (cipher_utils.cpp:674-688): applies the byte
transform independently to every byte of an in-memory buffer. -/
def process_content_caesar (content : List Nat) (pegs : Int) (encrypt_mode : Bool) : List Nat :=
  content.map (caesarByte pegs encrypt_mode)

/-- The C++ truncating remainder followed by the unsigned-char cast agrees
with the Euclidean residue. -/
theorem cppRem_emod (v : Int) : cppRem v 256 % 256 = v % 256 := by
  have h := Int.tdiv_add_tmod v 256
  unfold cppRem
  omega

theorem caesarByte_eq (pegs : Int) (em : Bool) (uc : Nat) :
    caesarByte pegs em uc =
      if em then ((((uc : Int) + pegs) % 256).toNat)
      else ((((uc : Int) - pegs + 256) % 256).toNat) := by
  unfold caesarByte toUChar
  cases em
  · rw [if_neg (by simp), if_neg (by simp), cppRem_emod]
  · rw [if_pos rfl, if_pos rfl, cppRem_emod]

/-- Per-byte roundtrip: decrypt after encrypt is the identity on bytes. -/
theorem caesarByte_roundtrip (pegs : Int) (uc : Nat)
    (hb : uc < 256) (hk1 : MIN_PEG ≤ pegs) (hk2 : pegs ≤ MAX_PEG) :
    caesarByte pegs false (caesarByte pegs true uc) = uc := by
  have h1 := caesarByte_eq pegs true uc
  have h2 := caesarByte_eq pegs false (caesarByte pegs true uc)
  rw [if_pos rfl] at h1
  rw [if_neg (by simp)] at h2
  rw [h2, h1]
  unfold MIN_PEG at hk1
  unfold MAX_PEG at hk2
  omega

/-- The streaming loop of `process_file_core` (cipher_utils.cpp:161-187):
read up to `BUFFER_SIZE` bytes, transform every byte of the chunk, write
it out, repeat until the input is exhausted. -/
def process_chunks (pegs : Int) (encrypt_mode : Bool) (l : List Nat) : List Nat :=
  if l = [] then []
  else (l.take BUFFER_SIZE).map (caesarByte pegs encrypt_mode) ++
    process_chunks pegs encrypt_mode (l.drop BUFFER_SIZE)
termination_by l.length
decreasing_by
  rename_i h
  have hl : 0 < l.length := List.length_pos.mpr h
  simp only [List.length_drop]
  unfold BUFFER_SIZE
  omega

/-- Chunked processing transforms exactly the same bytes as the in-memory
single pass. -/
theorem process_chunks_eq (pegs : Int) (em : Bool) (l : List Nat) :
    process_chunks pegs em l = l.map (caesarByte pegs em) := by
  have key : ∀ n, ∀ l : List Nat, l.length ≤ n →
      process_chunks pegs em l = l.map (caesarByte pegs em) := by
    intro n
    induction n with
    | zero =>
      intro l hl
      have hnil : l = [] := List.length_eq_zero.mp (Nat.le_zero.mp hl)
      subst hnil
      rw [process_chunks]
      simp
    | succ n ih =>
      intro l hl
      rw [process_chunks]
      by_cases h : l = []
      · simp [h]
      · rw [if_neg h, ih (l.drop BUFFER_SIZE) ?_, ← List.map_append,
          List.take_append_drop]
        have hp : 0 < l.length := List.length_pos.mpr h
        simp only [List.length_drop]
        unfold BUFFER_SIZE
        omega
  exact key l.length l le_rfl

/-- List-level roundtrip for the in-memory transform. -/
theorem process_content_caesar_roundtrip (x : List Nat) (k : Int)
    (hx : ∀ b ∈ x, b < 256) (hk1 : MIN_PEG ≤ k) (hk2 : k ≤ MAX_PEG) :
    process_content_caesar (process_content_caesar x k true) k false = x := by
  unfold process_content_caesar
  rw [List.map_map]
  have hgen : ∀ y : List Nat, (∀ b ∈ y, b < 256) →
      y.map (caesarByte k false ∘ caesarByte k true) = y := by
    intro y
    induction y with
    | nil => intro _; rfl
    | cons a as ih =>
      intro hy
      simp only [List.map_cons, Function.comp_apply]
      rw [caesarByte_roundtrip k a (hy a (by simp)) hk1 hk2,
        ih (fun b hb => hy b (List.mem_cons_of_mem a hb))]
  exact hgen x hx

/-! ## Filesystem model

Paths are lists of components relative to the working directory
(`std::filesystem::path::filename()` is the last component,
`parent_path()` drops it).  A filesystem maps paths to entries: a regular
file with its byte content, or a directory.  The history log
(`history.md`) is modelled as a separate append-only list. -/

abbrev Path := List String

/-- `std::filesystem::path::filename()`. -/
def filename (p : Path) : String := p.getLast?.getD ""

/-- `std::filesystem::path::parent_path()` (empty means the working
directory `"."`). -/
def parentDir (p : Path) : Path := p.dropLast

def pathToString (p : Path) : String := String.intercalate "/" p

inductive Entry
  | file (content : List Nat)
  | dir
deriving DecidableEq

/-- One line of `history.md`: an operation record written by
`log_operation`, or an event record written by `log_event`. -/
inductive LogLine
  | operation (kind : String) (input output : Path) (pegs : Int)
  | event (category : String) (details : String)
deriving DecidableEq

def lookupEntry : List (Path × Entry) → Path → Option Entry
  | [], _ => none
  | (q, e) :: rest, p => if q = p then some e else lookupEntry rest p

def setEntry : List (Path × Entry) → Path → Entry → List (Path × Entry)
  | [], p, e => [(p, e)]
  | (q, e0) :: rest, p, e =>
    if q = p then (p, e) :: rest else (q, e0) :: setEntry rest p e

def removeEntry : List (Path × Entry) → Path → List (Path × Entry)
  | [], _ => []
  | (q, e) :: rest, p =>
    if q = p then removeEntry rest p else (q, e) :: removeEntry rest p

structure FS where
  entries : List (Path × Entry)
  log : List LogLine
deriving DecidableEq

def FS.entry (fs : FS) (p : Path) : Option Entry := lookupEntry fs.entries p

def FS.setFile (fs : FS) (p : Path) (c : List Nat) : FS :=
  { fs with entries := setEntry fs.entries p (Entry.file c) }

/-- `log_event` appends one `EVENT (<category>): <details>` line. -/
def FS.logEvent (fs : FS) (category details : String) : FS :=
  { fs with log := fs.log ++ [LogLine.event category details] }

/-- `log_operation` appends one `<KIND>: <in> -> <out> (pegs: <N>)` line. -/
def FS.logOp (fs : FS) (kind : String) (input output : Path) (pegs : Int) : FS :=
  { fs with log := fs.log ++ [LogLine.operation kind input output pegs] }

theorem lookupEntry_setEntry_self (l : List (Path × Entry)) (p : Path) (e : Entry) :
    lookupEntry (setEntry l p e) p = some e := by
  induction l with
  | nil => simp [setEntry, lookupEntry]
  | cons head rest ih =>
    by_cases h : head.1 = p
    · simp [setEntry, h, lookupEntry]
    · simp [setEntry, h, lookupEntry, ih]

theorem lookupEntry_setEntry_ne (l : List (Path × Entry)) (p q : Path) (e : Entry)
    (h : q ≠ p) : lookupEntry (setEntry l p e) q = lookupEntry l q := by
  have hpq : ¬ p = q := fun he => h he.symm
  induction l with
  | nil =>
    simp only [setEntry, lookupEntry]
    rw [if_neg hpq]
  | cons head rest ih =>
    obtain ⟨hp, he⟩ := head
    by_cases hh : hp = p
    · subst hh
      rw [setEntry, if_pos rfl]
      simp only [lookupEntry]
      rw [if_neg hpq, if_neg hpq]
    · rw [setEntry, if_neg hh]
      simp only [lookupEntry]
      by_cases hq : hp = q
      · rw [if_pos hq, if_pos hq]
      · rw [if_neg hq, if_neg hq, ih]

theorem lookupEntry_removeEntry_self (l : List (Path × Entry)) (p : Path) :
    lookupEntry (removeEntry l p) p = none := by
  induction l with
  | nil => simp [removeEntry, lookupEntry]
  | cons head rest ih =>
    by_cases h : head.1 = p
    · simp [removeEntry, h, ih]
    · simp [removeEntry, h, lookupEntry, ih]

theorem lookupEntry_removeEntry_ne (l : List (Path × Entry)) (p q : Path)
    (h : q ≠ p) : lookupEntry (removeEntry l p) q = lookupEntry l q := by
  induction l with
  | nil => simp [removeEntry]
  | cons head rest ih =>
    by_cases hh : head.1 = p
    · rw [removeEntry, if_pos hh, ih, lookupEntry, if_neg]
      rw [hh]
      exact fun he => h he.symm
    · rw [removeEntry, if_neg hh, lookupEntry, lookupEntry]
      by_cases hq : head.1 = q
      · rw [if_pos hq, if_pos hq]
      · rw [if_neg hq, if_neg hq, ih]

theorem FS.entry_setFile_self (fs : FS) (p : Path) (c : List Nat) :
    (fs.setFile p c).entry p = some (Entry.file c) :=
  lookupEntry_setEntry_self fs.entries p (Entry.file c)

theorem FS.entry_setFile_ne (fs : FS) (p q : Path) (c : List Nat) (h : q ≠ p) :
    (fs.setFile p c).entry q = fs.entry q :=
  lookupEntry_setEntry_ne fs.entries p q (Entry.file c) h

theorem FS.entry_logEvent (fs : FS) (p : Path) (c d : String) :
    (fs.logEvent c d).entry p = fs.entry p := rfl

theorem FS.entry_logOp (fs : FS) (p : Path) (k : String) (i o : Path) (n : Int) :
    (fs.logOp k i o n).entry p = fs.entry p := rfl

/-! ## Validators (cipher_utils.cpp:31-144, 303-355, 380-412)

The writability probe (creating and deleting a `temp_write_check_*` file)
has no net effect on the state and succeeds whenever the parent directory
exists, so it is modelled as part of the parent-directory check.  The
`std::filesystem::equivalent` test degenerates to path equality because
the model has no links. -/

/-- Is the optional entry an existing directory? -/
def isDir : Option Entry → Bool
  | some Entry.dir => true
  | _ => false

/-- Parent-directory test from the validators: the empty parent is the
working directory `"."` which always exists. -/
def parent_ok (fs : FS) (d : Path) : Bool :=
  if d = [] then true else isDir (fs.entry d)

/-- Shared tail of the output validators: parent directory exists and is
a directory, the output path is not an existing non-regular file, and the
writability probe succeeds. -/
def output_target_ok (fs : FS) (outp : Path) : Bool :=
  parent_ok fs (parentDir outp) && !(isDir (fs.entry outp))

/-- `validate_input_file` (cipher_utils.cpp:93-114): the path must denote
an existing regular file of nonzero size. -/
def validate_input_file (fs : FS) (p : Path) : Bool :=
  match fs.entry p with
  | some (Entry.file c) => !(c.length == 0)
  | _ => false

/-- `validate_peg_value` (cipher_utils.cpp:116-118). -/
def validate_peg_value (peg : Int) : Bool :=
  decide (MIN_PEG ≤ peg) && decide (peg ≤ MAX_PEG)

/-- Internal `validate_output_file` (cipher_utils.cpp:31-82); the optional
comparison path models the empty-string sentinel. -/
def validate_output_file (fs : FS) (outp : Path) (cmp : Option Path) : Bool :=
  (match cmp with
   | some inp => !(outp == inp)
   | none => true) && output_target_ok fs outp

/-- `cipher_utils.h`: `struct OperationParams`. -/
structure OperationParams where
  input_file : Path
  output_file : Path
  pegs : Int

/-- `cipher_utils.h`: `struct ValidationFlags` with its defaults. -/
structure ValidationFlags where
  check_input_file : Bool := true
  check_output_file : Bool := true
  check_pegs : Bool := true
  ensure_output_different_from_input : Bool := true

def DEFAULT_ENCRYPT_DECRYPT_FLAGS : ValidationFlags := ⟨true, true, true, true⟩

/-- `validate_operation_parameters` (cipher_utils.cpp:120-140): applies
each enabled check in order, short-circuiting on the first failure. -/
def validate_operation_parameters (fs : FS) (params : OperationParams)
    (flags : ValidationFlags) : Bool :=
  (if flags.check_input_file then validate_input_file fs params.input_file else true) &&
  (if flags.check_output_file then
    validate_output_file fs params.output_file
      (if flags.ensure_output_different_from_input then some params.input_file else none)
   else true) &&
  (if flags.check_pegs then validate_peg_value params.pegs else true)

/-- The auto-derived encrypted-output name: `enc_` prepended to the base
filename, in the same directory (cipher_utils.cpp:349-350, 367). -/
def derivedOutput (inp : Path) : Path := parentDir inp ++ ["enc_" ++ filename inp]

/-- `validate_derived_output_file` (cipher_utils.cpp:303-338). -/
def validate_derived_output_file (fs : FS) (outp inp : Path) : Bool :=
  !(outp == inp) && output_target_ok fs outp

/-- `validate_encryption_params_new` (cipher_utils.cpp:340-355). -/
def validate_encryption_params_new (fs : FS) (inp : Path) (pegs : Int) : Bool :=
  validate_input_file fs inp && validate_peg_value pegs &&
    validate_derived_output_file fs (derivedOutput inp) inp

/-! ## Core file transform (cipher_utils.cpp:147-199) -/

/-- `process_file_core`: open the input, open the output with `trunc`
(fails when the parent directory is missing or the path is an existing
directory), stream the transform chunk by chunk, and log the operation on
success.  If output and input are the same path, the truncation empties
the file before it is read. -/
def process_file_core (fs : FS) (input_file output_file : Path) (pegs : Int)
    (encrypt_mode : Bool) : Bool × FS :=
  match fs.entry input_file with
  | some (Entry.file c) =>
    if parent_ok fs (parentDir output_file) && !(isDir (fs.entry output_file)) then
      let source := if output_file = input_file then [] else c
      let fs1 := fs.setFile output_file (process_chunks pegs encrypt_mode source)
      (true, fs1.logOp (if encrypt_mode then "ENCRYPT" else "DECRYPT")
        input_file output_file pegs)
    else (false, fs)
  | _ => (false, fs)

/-- `decrypt_file` (cipher_utils.cpp:197-199). -/
def decrypt_file (fs : FS) (input_file output_file : Path) (pegs : Int) : Bool × FS :=
  process_file_core fs input_file output_file pegs false

/-! ## Vault (cipher_utils.cpp:257-441) -/

def vaultPath : Path := [PRIVATE_VAULT_DIR]

/-- `ensure_private_vault_exists` (cipher_utils.cpp:257-272): creates the
vault directory when absent; an existing non-directory is fatal. -/
def ensure_private_vault_exists (fs : FS) : Bool × FS :=
  match fs.entry vaultPath with
  | none => (true, { fs with entries := setEntry fs.entries vaultPath Entry.dir })
  | some Entry.dir => (true, fs)
  | some (Entry.file _) => (false, fs)

/-- `move_to_vault` (cipher_utils.cpp:278-301): refuses when the base
name already exists in the vault, otherwise renames the original into the
vault and logs a `VAULT_STORE` event. -/
def move_to_vault (fs : FS) (p : Path) : Bool × FS :=
  let r0 := ensure_private_vault_exists fs
  if !r0.1 then (false, r0.2)
  else
    match r0.2.entry p with
    | some (Entry.file c) =>
      let dest := vaultPath ++ [filename p]
      match r0.2.entry dest with
      | some _ => (false, r0.2)
      | none =>
        let fs1 : FS :=
          { r0.2 with entries := setEntry (removeEntry r0.2.entries p) dest (Entry.file c) }
        (true, fs1.logEvent "VAULT_STORE" (filename p ++ " moved to vault."))
    | _ => (false, r0.2)

/-- The marker test `filename.rfind("enc_", 0) == 0` from
cipher_utils.cpp:359: does the base filename start with `enc_`? -/
def has_enc_marker (s : String) : Bool := "enc_".data.isPrefixOf s.data

/-- `encrypt_file` (cipher_utils.cpp:357-378). -/
def encrypt_file (fs : FS) (inp : Path) (pegs : Int) : Bool × FS :=
  if has_enc_marker (filename inp) then
    (false, fs.logEvent "ENCRYPT_FAIL"
      ("Attempt to encrypt already encrypted file: " ++ pathToString inp))
  else if !(validate_encryption_params_new fs inp pegs) then (false, fs)
  else
    let outp := derivedOutput inp
    let r1 := process_file_core fs inp outp pegs true
    if !r1.1 then
      (false, r1.2.logEvent "ENCRYPT_FAIL" ("Core processing failed for: " ++ pathToString inp))
    else
      let r2 := move_to_vault r1.2 inp
      if !r2.1 then
        (true, r2.2.logEvent "VAULT_FAIL"
          ("Failed to move " ++ pathToString inp ++ " to vault after encryption to " ++
            pathToString outp))
      else (true, r2.2)

/-- `validate_destination_path` (cipher_utils.cpp:380-412). -/
def validate_destination_path (fs : FS) (dest : Path) (name : String) : Bool :=
  let src := vaultPath ++ [name]
  !((fs.entry dest).isSome && (fs.entry src).isSome && dest == src) &&
    output_target_ok fs dest

/-- `retrieve_from_vault` (cipher_utils.cpp:414-441): validates, then
copies (never moves) the vault entry to the destination, overwriting it,
and logs a `VAULT_RETRIEVE` event. -/
def retrieve_from_vault (fs : FS) (name : String) (dest : Path) : Bool × FS :=
  let r0 := ensure_private_vault_exists fs
  if !r0.1 then (false, r0.2)
  else
    let src := vaultPath ++ [name]
    match r0.2.entry src with
    | some (Entry.file c) =>
      if validate_destination_path r0.2 dest name then
        (true, (r0.2.setFile dest c).logEvent "VAULT_RETRIEVE"
          (name ++ " retrieved to " ++ pathToString dest))
      else (false, r0.2)
    | _ => (false, r0.2)

/-! ## Text comparison (cipher_utils.cpp:512-604, 720-757)

`compare_text_files` and `compare_string_contents` run the identical
character loop; it is embedded once, over contents.  The C++ `float`
percentage is modelled by exact rational arithmetic (see the header
comment). -/

structure TextCompareResult where
  files_readable : Bool := false
  content1 : List Nat := []
  content2 : List Nat := []
  match_percentage : ℚ := 0
  first_diff_offset : Int := -1
deriving DecidableEq

/-- The `matching_chars` accumulator of the comparison loop. -/
def countMatches : List Nat → List Nat → Nat
  | a :: as, b :: bs => (if a = b then 1 else 0) + countMatches as bs
  | _, _ => 0

/-- The `first_diff_offset` accumulator of the comparison loop (`none`
while no mismatch has been seen in the overlap). -/
def firstMismatch : List Nat → List Nat → Option Nat
  | a :: as, b :: bs => if a = b then (firstMismatch as bs).map (· + 1) else some 0
  | _, _ => none

/-- `compare_string_contents` (cipher_utils.cpp:720-757): one pass over
the overlapping prefix counting matches and recording the first mismatch,
then the percentage over `max(len1, len2)` with the empty-input special
cases, and the length-difference adjustment of `first_diff_offset`. -/
def compare_string_contents (content1 content2 : List Nat) : TextCompareResult :=
  let len1 := content1.length
  let len2 := content2.length
  let min_len := min len1 len2
  let max_len := max len1 len2
  let matching_chars := countMatches content1 content2
  let fd0 : Int := match firstMismatch content1 content2 with
    | some i => (i : Int)
    | none => -1
  let match_percentage : ℚ :=
    if max_len > 0 then ((matching_chars : ℚ) / (max_len : ℚ)) * 100
    else if len1 = 0 ∧ len2 = 0 then 100
    else 0
  let first_diff_offset : Int :=
    if len1 ≠ len2 ∧ fd0 = -1 then (min_len : Int) else fd0
  { files_readable := true, content1 := content1, content2 := content2,
    match_percentage := match_percentage, first_diff_offset := first_diff_offset }

/-- Claim-side definition, following the words of the specification: the
number of positions `i < min(len_a, len_b)` at which the two contents
hold the same byte. -/
def specMatches (a b : List Nat) : Nat :=
  (List.range (min a.length b.length)).countP (fun i => decide (a[i]? = b[i]?))

theorem countMatches_le (a b : List Nat) :
    countMatches a b ≤ min a.length b.length := by
  induction a generalizing b with
  | nil => rw [countMatches.eq_def]; split <;> simp_all
  | cons x xs ih =>
    cases b with
    | nil => rw [countMatches.eq_def]; simp
    | cons y ys =>
      rw [countMatches]
      have := ih ys
      by_cases h : x = y <;> simp [h] <;> omega

theorem countMatches_self (a : List Nat) : countMatches a a = a.length := by
  induction a with
  | nil => rw [countMatches.eq_def]; simp
  | cons x xs ih =>
    rw [countMatches, ih, if_pos rfl]
    simp [Nat.add_comm]

theorem countMatches_eq_length (a b : List Nat) (hl : a.length = b.length)
    (hm : countMatches a b = a.length) : a = b := by
  induction a generalizing b with
  | nil => cases b with
    | nil => rfl
    | cons y ys => simp at hl
  | cons x xs ih =>
    cases b with
    | nil => simp at hl
    | cons y ys =>
      rw [countMatches] at hm
      have hle := countMatches_le xs ys
      simp only [List.length_cons] at hl hm
      by_cases h : x = y
      · subst h
        rw [if_pos rfl] at hm
        rw [ih ys (by omega) (by omega)]
      · rw [if_neg h] at hm
        exfalso
        omega

theorem countMatches_eq_specMatches (a b : List Nat) :
    countMatches a b = specMatches a b := by
  induction a generalizing b with
  | nil =>
    rw [countMatches.eq_def]
    simp [specMatches]
  | cons x xs ih =>
    cases b with
    | nil => rw [countMatches.eq_def]; simp [specMatches]
    | cons y ys =>
      rw [countMatches, ih ys]
      unfold specMatches
      simp only [List.length_cons, Nat.succ_min_succ, List.range_succ_eq_map,
        List.countP_cons, List.countP_map]
      have hfun : ((fun i => decide ((x :: xs)[i]? = (y :: ys)[i]?)) ∘ Nat.succ) =
          (fun i => decide (xs[i]? = ys[i]?)) := by
        funext i
        simp [Function.comp]
      rw [hfun]
      by_cases h : x = y <;> simp [h, Nat.add_comm]

theorem firstMismatch_self (a : List Nat) : firstMismatch a a = none := by
  induction a with
  | nil => rw [firstMismatch.eq_def]
  | cons x xs ih => rw [firstMismatch, if_pos rfl, ih]; rfl

theorem firstMismatch_none (a : List Nat) : ∀ b : List Nat,
    (∀ j, j < min a.length b.length → a[j]? = b[j]?) → firstMismatch a b = none := by
  induction a with
  | nil => intro b _; rw [firstMismatch.eq_def]
  | cons x xs ih =>
    intro b h
    cases b with
    | nil => rw [firstMismatch.eq_def]
    | cons y ys =>
      have h0 := h 0 (by simp)
      simp only [List.getElem?_cons_zero, Option.some_inj] at h0
      have hrec : firstMismatch xs ys = none := ih ys (fun j hj => by
        have hs := h (j + 1) (by simp at hj ⊢; omega)
        simpa using hs)
      rw [firstMismatch, if_pos h0, hrec]
      rfl

theorem firstMismatch_of (i : Nat) : ∀ a b : List Nat,
    (∀ j, j < i → a[j]? = b[j]?) → a[i]? ≠ b[i]? → i < min a.length b.length →
    firstMismatch a b = some i := by
  induction i with
  | zero =>
    intro a b _ hi hlt
    cases a with
    | nil => simp at hlt
    | cons x xs =>
      cases b with
      | nil => simp at hlt
      | cons y ys =>
        simp only [List.getElem?_cons_zero, ne_eq, Option.some_inj] at hi
        rw [firstMismatch, if_neg hi]
  | succ i ih =>
    intro a b hpre hi hlt
    cases a with
    | nil => simp at hlt
    | cons x xs =>
      cases b with
      | nil => simp at hlt
      | cons y ys =>
        have h0 := hpre 0 (by omega)
        simp only [List.getElem?_cons_zero, Option.some_inj] at h0
        rw [firstMismatch, if_pos h0,
          ih xs ys (fun j hj => by simpa using hpre (j + 1) (by omega))
            (by simpa using hi) (by simp at hlt ⊢; omega)]
        rfl

theorem eq_of_overlap_eq (a b : List Nat) (hl : a.length = b.length)
    (h : ∀ j, j < min a.length b.length → a[j]? = b[j]?) : a = b := by
  apply List.ext_getElem?
  intro i
  by_cases hi : i < a.length
  · exact h i (by omega)
  · rw [List.getElem?_eq_none (by omega), List.getElem?_eq_none (by omega)]

/-- `match_percentage` is exactly 100 precisely for byte-equal contents. -/
theorem match_percentage_eq_100_iff (a b : List Nat) :
    (compare_string_contents a b).match_percentage = 100 ↔ a = b := by
  unfold compare_string_contents
  simp only
  by_cases hmax : max a.length b.length > 0
  · rw [if_pos hmax]
    have hm0 : ((max a.length b.length : Nat) : ℚ) ≠ 0 := Nat.cast_ne_zero.mpr (by omega)
    constructor
    · intro h
      rw [div_mul_eq_mul_div, div_eq_iff hm0] at h
      have hm : countMatches a b = max a.length b.length := by
        have hq : (countMatches a b : ℚ) = ((max a.length b.length : Nat) : ℚ) := by
          linarith
        exact_mod_cast hq
      have hle := countMatches_le a b
      have hlen : a.length = b.length := by omega
      exact countMatches_eq_length a b hlen (by omega)
    · intro h
      subst h
      rw [countMatches_self]
      simp only [max_self] at hm0 ⊢
      rw [div_self hm0, one_mul]
  · rw [if_neg hmax]
    have hab : a.length = 0 ∧ b.length = 0 := by omega
    rw [if_pos hab]
    have ha : a = [] := List.length_eq_zero.mp hab.1
    have hb : b = [] := List.length_eq_zero.mp hab.2
    simp [ha, hb]

/-! ## Helper lemmas about the operations -/

theorem enc_filename_ne (s : String) : "enc_" ++ s ≠ s := by
  intro h
  have hlen := congrArg String.length h
  rw [String.length_append] at hlen
  have h4 : ("enc_" : String).length = 4 := rfl
  omega

theorem derivedOutput_ne (p : Path) : derivedOutput p ≠ p := by
  intro h
  have hl := congrArg List.getLast? h
  unfold derivedOutput parentDir at hl
  rw [List.getLast?_concat] at hl
  unfold filename at hl
  cases hgl : p.getLast? with
  | none => rw [hgl] at hl; exact Option.noConfusion hl
  | some g =>
    rw [hgl] at hl
    simp only [Option.getD_some] at hl
    exact enc_filename_ne g (Option.some.inj hl)

theorem vaultDest_ne_derivedOutput (p : Path) :
    vaultPath ++ [filename p] ≠ derivedOutput p := by
  intro h
  have hl := congrArg List.getLast? h
  unfold derivedOutput at hl
  rw [List.getLast?_concat, List.getLast?_concat] at hl
  exact enc_filename_ne (filename p) (by simpa using hl.symm)

/-- When the condition of `process_file_core` holds and output ≠ input,
the call writes the transformed content and logs the operation. -/
theorem process_file_core_spec (fs : FS) (inp outp : Path) (k : Int) (em : Bool)
    (c : List Nat) (hin : fs.entry inp = some (Entry.file c))
    (hpo : parent_ok fs (parentDir outp) = true)
    (hod : isDir (fs.entry outp) = false)
    (hne : outp ≠ inp) :
    process_file_core fs inp outp k em =
      (true, (fs.setFile outp (process_chunks k em c)).logOp
        (if em then "ENCRYPT" else "DECRYPT") inp outp k) := by
  unfold process_file_core
  rw [hin, hpo, hod]
  simp only [Bool.not_false, Bool.and_self, if_true]
  rw [if_neg hne]

/-- A `process_file_core` call that cannot open its input fails and
leaves the state untouched. -/
theorem process_file_core_no_input (fs : FS) (inp outp : Path) (k : Int) (em : Bool)
    (hin : fs.entry inp = none) :
    process_file_core fs inp outp k em = (false, fs) := by
  unfold process_file_core
  rw [hin]

/-- C1: for every byte sequence and every peg in `[MIN_PEG, MAX_PEG]`,
decrypting the encryption with the same peg is the identity, both for the
in-memory transform `process_content_caesar` and for the file-based
`process_file_core` (encrypt a file, then decrypt the produced file: the
final output holds the original bytes). -/
theorem c1_encrypt_decrypt_roundtrip (x : List Nat) (k : Int)
    (hx : ∀ b ∈ x, b < 256) (hk1 : MIN_PEG ≤ k) (hk2 : k ≤ MAX_PEG) :
    process_content_caesar (process_content_caesar x k true) k false = x ∧
    (∀ (fs : FS) (inp mid outp : Path),
      fs.entry inp = some (Entry.file x) →
      parent_ok fs (parentDir mid) = true →
      isDir (fs.entry mid) = false →
      mid ≠ inp → outp ≠ mid →
      parent_ok (process_file_core fs inp mid k true).2 (parentDir outp) = true →
      isDir ((process_file_core fs inp mid k true).2.entry outp) = false →
      (process_file_core (process_file_core fs inp mid k true).2 mid outp k false).1 = true ∧
      (process_file_core (process_file_core fs inp mid k true).2 mid outp k false).2.entry outp
        = some (Entry.file x)) := by
  have hround : process_chunks k false (process_chunks k true x) = x := by
    rw [process_chunks_eq, process_chunks_eq]
    exact process_content_caesar_roundtrip x k hx hk1 hk2
  refine ⟨process_content_caesar_roundtrip x k hx hk1 hk2, ?_⟩
  intro fs inp mid outp hin hpo1 hod1 hne1 hne2 hpo2 hod2
  have h1 := process_file_core_spec fs inp mid k true x hin hpo1 hod1 hne1
  rw [h1] at hpo2 hod2 ⊢
  have hmid : ((fs.setFile mid (process_chunks k true x)).logOp
      (if true then "ENCRYPT" else "DECRYPT") inp mid k).entry mid
      = some (Entry.file (process_chunks k true x)) := by
    rw [FS.entry_logOp, FS.entry_setFile_self]
  have h2 := process_file_core_spec _ mid outp k false (process_chunks k true x)
    hmid hpo2 hod2 hne2
  rw [h2]
  refine ⟨rfl, ?_⟩
  rw [FS.entry_logOp, FS.entry_setFile_self, hround]

/-- Concrete instantiation of C1. -/
theorem c1_witness :
    process_content_caesar (process_content_caesar [0, 7, 255] 5 true) 5 false = [0, 7, 255] ∧
    (process_file_core (process_file_core ⟨[(["a"], Entry.file [0, 7, 255])], []⟩
        ["a"] ["b"] 5 true).2 ["b"] ["c"] 5 false).2.entry ["c"]
      = some (Entry.file [0, 7, 255]) := by
  have h := c1_encrypt_decrypt_roundtrip [0, 7, 255] 5 (by decide) (by decide) (by decide)
  refine ⟨h.1, ?_⟩
  exact (h.2 ⟨[(["a"], Entry.file [0, 7, 255])], []⟩ ["a"] ["b"] ["c"]
    (by decide) (by decide) (by decide) (by decide) (by decide)
    (by decide) (by decide)).2

/-- C2: the verify-against-external workflow (encrypt the vault content
in memory with peg `k`, then compare with `compare_string_contents`, as
the Compare handler in jay_gui.cpp:300-368 does) reports a 100% match
exactly when the external content byte-equals the encryption of the
vault content.  `float` is modelled by exact rational arithmetic. -/
theorem c2_verify_against_external (vault_content external_content : List Nat) (k : Int)
    (hk1 : MIN_PEG ≤ k) (hk2 : k ≤ MAX_PEG) :
    ((compare_string_contents (process_content_caesar vault_content k true)
        external_content).match_percentage = 100 ↔
      external_content = process_content_caesar vault_content k true) := by
  rw [match_percentage_eq_100_iff]
  exact eq_comm

/-- Concrete instantiation of C2. -/
theorem c2_witness :
    (compare_string_contents (process_content_caesar [1, 2] 3 true)
      [4, 5]).match_percentage = 100 :=
  (c2_verify_against_external [1, 2] [4, 5] 3 (by decide) (by decide)).mpr (by decide)

theorem countMatches_nil_left (b : List Nat) : countMatches [] b = 0 := by
  cases b <;> rfl

theorem countMatches_nil_right (a : List Nat) : countMatches a [] = 0 := by
  cases a <;> rfl

theorem compare_mp_def (a b : List Nat) :
    (compare_string_contents a b).match_percentage =
      (if max a.length b.length > 0 then
        ((countMatches a b : ℚ) / ((max a.length b.length : Nat) : ℚ)) * 100
       else if a.length = 0 ∧ b.length = 0 then 100 else 0) := rfl

theorem compare_fdo_def (a b : List Nat) :
    (compare_string_contents a b).first_diff_offset =
      (let fd0 : Int := match firstMismatch a b with
        | some i => (i : Int)
        | none => -1
       if a.length ≠ b.length ∧ fd0 = -1 then ((min a.length b.length : Nat) : Int)
       else fd0) := rfl

/-- C3: the text comparison computes `match_percentage` as the number of
matching positions in the overlap over `max(len_a, len_b)` times 100
(100 when both sides are empty, 0 when exactly one is), and
`first_diff_offset` as the first differing index, or `min(len_a, len_b)`
when the overlap matches but the lengths differ, or `-1` for identical
contents; `("abc", "abd")` gives offset 2 and percentage `200/3 ≈ 66.7`. -/
theorem c3_compare_text :
    (∀ a b : List Nat,
      ((compare_string_contents a b).match_percentage =
        (if a.length = 0 ∧ b.length = 0 then (100 : ℚ)
         else (specMatches a b : ℚ) / ((max a.length b.length : Nat) : ℚ) * 100)) ∧
      ((a = [] ∧ b ≠ []) ∨ (a ≠ [] ∧ b = []) →
        (compare_string_contents a b).match_percentage = 0) ∧
      (a = b → (compare_string_contents a b).first_diff_offset = -1) ∧
      (∀ i : Nat, (∀ j, j < i → a[j]? = b[j]?) → a[i]? ≠ b[i]? →
        i < min a.length b.length →
        (compare_string_contents a b).first_diff_offset = (i : Int)) ∧
      ((∀ j, j < min a.length b.length → a[j]? = b[j]?) → a ≠ b →
        (compare_string_contents a b).first_diff_offset =
          ((min a.length b.length : Nat) : Int))) ∧
    (compare_string_contents [97, 98, 99] [97, 98, 100]).first_diff_offset = 2 ∧
    (compare_string_contents [97, 98, 99] [97, 98, 100]).match_percentage = 200 / 3 ∧
    (666 : ℚ) / 10 < 200 / 3 ∧ (200 : ℚ) / 3 < 667 / 10 := by
  have hcm : countMatches [97, 98, 99] [97, 98, 100] = 2 := rfl
  refine ⟨?_, by decide, ?_, by norm_num, by norm_num⟩
  case refine_2 =>
    rw [compare_mp_def, hcm]
    norm_num
  intro a b
  refine ⟨?_, ?_, ?_, ?_, ?_⟩
  · rw [compare_mp_def]
    by_cases hmax : max a.length b.length > 0
    · rw [if_pos hmax, if_neg (by omega), countMatches_eq_specMatches]
    · rw [if_neg hmax, if_pos (by omega), if_pos (by omega)]
  · intro hone
    rw [compare_mp_def]
    rcases hone with ⟨ha, hb⟩ | ⟨ha, hb⟩
    · subst ha
      rw [if_pos (by simp [List.length_pos.mpr hb]), countMatches_nil_left]
      simp
    · subst hb
      rw [if_pos (by simp [List.length_pos.mpr ha]), countMatches_nil_right]
      simp
  · intro hab
    subst hab
    rw [compare_fdo_def]
    simp [firstMismatch_self]
  · intro i hpre hi hlt
    rw [compare_fdo_def]
    rw [firstMismatch_of i a b hpre hi hlt]
    simp only
    rw [if_neg (by omega)]
  · intro hover hne
    rw [compare_fdo_def]
    rw [firstMismatch_none a b hover]
    simp only
    rw [if_pos ⟨fun hl => hne (eq_of_overlap_eq a b hl hover), by trivial⟩]

/-- Concrete instantiation of C3. -/
theorem c3_witness :
    (compare_string_contents [5] [5]).first_diff_offset = -1 ∧
    (compare_string_contents [5, 6] [5, 7]).first_diff_offset = 1 ∧
    (compare_string_contents [5, 6] [5, 6, 9]).first_diff_offset = 2 ∧
    (compare_string_contents [] [3]).match_percentage = 0 :=
  ⟨((c3_compare_text.1 [5] [5]).2.2.1 rfl),
   ((c3_compare_text.1 [5, 6] [5, 7]).2.2.2.1 1 (by decide) (by decide) (by decide)),
   ((c3_compare_text.1 [5, 6] [5, 6, 9]).2.2.2.2 (by decide) (by decide)),
   ((c3_compare_text.1 [] [3]).2.1 (Or.inl ⟨rfl, by decide⟩))⟩

theorem append_singleton_ne (l : List String) (s : String) : l ++ [s] ≠ l := by
  intro h
  have hl := congrArg List.length h
  simp at hl

theorem ensure_vault_of_dir (fs : FS) (h : fs.entry vaultPath = some Entry.dir) :
    ensure_private_vault_exists fs = (true, fs) := by
  unfold ensure_private_vault_exists
  rw [h]

theorem ensure_vault_of_file (fs : FS) (c : List Nat)
    (h : fs.entry vaultPath = some (Entry.file c)) :
    ensure_private_vault_exists fs = (false, fs) := by
  unfold ensure_private_vault_exists
  rw [h]

theorem ensure_vault_of_none (fs : FS) (h : fs.entry vaultPath = none) :
    ensure_private_vault_exists fs =
      (true, { fs with entries := setEntry fs.entries vaultPath Entry.dir }) := by
  unfold ensure_private_vault_exists
  rw [h]

theorem ensure_vault_true_dir (fs : FS)
    (h : (ensure_private_vault_exists fs).1 = true) :
    (ensure_private_vault_exists fs).2.entry vaultPath = some Entry.dir := by
  cases he : fs.entry vaultPath with
  | none =>
    rw [ensure_vault_of_none fs he]
    exact lookupEntry_setEntry_self fs.entries vaultPath Entry.dir
  | some e =>
    cases e with
    | dir => rw [ensure_vault_of_dir fs he]; exact he
    | file c => rw [ensure_vault_of_file fs c he] at h; exact absurd h (by simp)

theorem ensure_vault_entry_preserved (fs : FS) (q : Path)
    (hq : fs.entry q ≠ none ∨ q ≠ vaultPath) :
    (ensure_private_vault_exists fs).2.entry q = fs.entry q := by
  cases he : fs.entry vaultPath with
  | none =>
    rw [ensure_vault_of_none fs he]
    have hqv : q ≠ vaultPath := by
      rcases hq with hq | hq
      · intro hx; rw [hx] at hq; exact hq he
      · exact hq
    exact lookupEntry_setEntry_ne fs.entries vaultPath q Entry.dir hqv
  | some e =>
    cases e with
    | dir => rw [ensure_vault_of_dir fs he]
    | file c => rw [ensure_vault_of_file fs c he]

theorem ensure_vault_log (fs : FS) :
    (ensure_private_vault_exists fs).2.log = fs.log := by
  cases he : fs.entry vaultPath with
  | none => rw [ensure_vault_of_none fs he]
  | some e =>
    cases e with
    | dir => rw [ensure_vault_of_dir fs he]
    | file c => rw [ensure_vault_of_file fs c he]

/-- The state written by a successful rename into the vault. -/
def movedState (fs : FS) (p : Path) (c : List Nat) : FS :=
  FS.logEvent
    { entries := setEntry (removeEntry fs.entries p) (vaultPath ++ [filename p]) (Entry.file c),
      log := fs.log }
    "VAULT_STORE" (filename p ++ " moved to vault.")

theorem move_to_vault_of_dir_shape (fs : FS) (p : Path)
    (hv : fs.entry vaultPath = some Entry.dir) :
    move_to_vault fs p =
      (match fs.entry p with
       | some (Entry.file c) =>
         match fs.entry (vaultPath ++ [filename p]) with
         | some _ => (false, fs)
         | none => (true, movedState fs p c)
       | _ => (false, fs)) := by
  unfold move_to_vault
  rw [ensure_vault_of_dir fs hv]
  rfl

theorem move_to_vault_of_file_shape (fs : FS) (p : Path) (c : List Nat)
    (hv : fs.entry vaultPath = some (Entry.file c)) :
    move_to_vault fs p = (false, fs) := by
  unfold move_to_vault
  rw [ensure_vault_of_file fs c hv]
  rfl

theorem move_to_vault_of_none_shape (fs : FS) (p : Path)
    (hv : fs.entry vaultPath = none) :
    move_to_vault fs p =
      (let fs0 : FS := { fs with entries := setEntry fs.entries vaultPath Entry.dir }
       match fs0.entry p with
       | some (Entry.file c) =>
         match fs0.entry (vaultPath ++ [filename p]) with
         | some _ => (false, fs0)
         | none => (true, movedState fs0 p c)
       | _ => (false, fs0)) := by
  unfold move_to_vault
  rw [ensure_vault_of_none fs hv]
  rfl

theorem move_to_vault_collision (fs : FS) (p : Path)
    (hv : fs.entry vaultPath = some Entry.dir)
    (hcol : (fs.entry (vaultPath ++ [filename p])).isSome = true) :
    move_to_vault fs p = (false, fs) := by
  rw [move_to_vault_of_dir_shape fs p hv]
  cases hp : fs.entry p with
  | none => rfl
  | some e =>
    cases e with
    | dir => rfl
    | file c =>
      cases hd : fs.entry (vaultPath ++ [filename p]) with
      | none => rw [hd] at hcol; exact absurd hcol (by simp)
      | some e2 => rfl

theorem movedState_entry (fs : FS) (p : Path) (c : List Nat) (q : Path)
    (hq1 : q ≠ p) (hq2 : q ≠ vaultPath ++ [filename p]) :
    (movedState fs p c).entry q = fs.entry q := by
  unfold movedState FS.logEvent FS.entry
  simp only
  rw [lookupEntry_setEntry_ne _ _ _ _ hq2, lookupEntry_removeEntry_ne _ _ _ hq1]

theorem movedState_dest (fs : FS) (p : Path) (c : List Nat) :
    (movedState fs p c).entry (vaultPath ++ [filename p]) = some (Entry.file c) := by
  unfold movedState FS.logEvent FS.entry
  simp only
  rw [lookupEntry_setEntry_self]

/-- Any outcome of `move_to_vault` leaves a path other than the source,
its vault slot, and a not-yet-created vault directory untouched. -/
theorem move_to_vault_preserves_entry (fs : FS) (p q : Path)
    (hq1 : q ≠ p) (hq2 : q ≠ vaultPath ++ [filename p])
    (hq3 : fs.entry q ≠ none ∨ q ≠ vaultPath) :
    (move_to_vault fs p).2.entry q = fs.entry q := by
  cases hv : fs.entry vaultPath with
  | none =>
    rw [move_to_vault_of_none_shape fs p hv]
    have hqv : q ≠ vaultPath := by
      rcases hq3 with hq3 | hq3
      · intro hx; rw [hx] at hq3; exact hq3 hv
      · exact hq3
    have hfs0 : ({ fs with entries := setEntry fs.entries vaultPath Entry.dir } : FS).entry q
        = fs.entry q := lookupEntry_setEntry_ne fs.entries vaultPath q Entry.dir hqv
    simp only
    cases hp : ({ fs with entries := setEntry fs.entries vaultPath Entry.dir } : FS).entry p with
    | none => exact hfs0
    | some e =>
      cases e with
      | dir => exact hfs0
      | file c =>
        cases hd : ({ fs with entries := setEntry fs.entries vaultPath Entry.dir } : FS).entry
            (vaultPath ++ [filename p]) with
        | some e2 => exact hfs0
        | none =>
          rw [movedState_entry _ p c q hq1 hq2]
          exact hfs0
  | some e =>
    cases e with
    | file c => rw [move_to_vault_of_file_shape fs p c hv]
    | dir =>
      rw [move_to_vault_of_dir_shape fs p hv]
      cases hp : fs.entry p with
      | none => rfl
      | some e =>
        cases e with
        | dir => rfl
        | file c =>
          cases hd : fs.entry (vaultPath ++ [filename p]) with
          | some e2 => rfl
          | none => exact movedState_entry fs p c q hq1 hq2

/-- A failing `move_to_vault` performs no rename and writes no log line;
at most the vault directory itself may have been created. -/
theorem move_to_vault_fail_state (fs : FS) (p : Path)
    (hfail : (move_to_vault fs p).1 = false) :
    (move_to_vault fs p).2.log = fs.log ∧
    (∀ q : Path, fs.entry q ≠ none ∨ q ≠ vaultPath →
      (move_to_vault fs p).2.entry q = fs.entry q) := by
  cases hv : fs.entry vaultPath with
  | none =>
    rw [move_to_vault_of_none_shape fs p hv] at hfail ⊢
    simp only at hfail ⊢
    cases hp : ({ fs with entries := setEntry fs.entries vaultPath Entry.dir } : FS).entry p with
    | none =>
      refine ⟨rfl, fun q hq => ?_⟩
      have hqv : q ≠ vaultPath := by
        rcases hq with hq | hq
        · intro hx; rw [hx] at hq; exact hq hv
        · exact hq
      exact lookupEntry_setEntry_ne fs.entries vaultPath q Entry.dir hqv
    | some e =>
      cases e with
      | dir =>
        refine ⟨rfl, fun q hq => ?_⟩
        have hqv : q ≠ vaultPath := by
          rcases hq with hq | hq
          · intro hx; rw [hx] at hq; exact hq hv
          · exact hq
        exact lookupEntry_setEntry_ne fs.entries vaultPath q Entry.dir hqv
      | file c =>
        cases hd : ({ fs with entries := setEntry fs.entries vaultPath Entry.dir } : FS).entry
            (vaultPath ++ [filename p]) with
        | some e2 =>
          refine ⟨rfl, fun q hq => ?_⟩
          have hqv : q ≠ vaultPath := by
            rcases hq with hq | hq
            · intro hx; rw [hx] at hq; exact hq hv
            · exact hq
          exact lookupEntry_setEntry_ne fs.entries vaultPath q Entry.dir hqv
        | none =>
          rw [hp, hd] at hfail
          simp at hfail
  | some e =>
    cases e with
    | file c =>
      rw [move_to_vault_of_file_shape fs p c hv]
      exact ⟨rfl, fun q _ => rfl⟩
    | dir =>
      rw [move_to_vault_of_dir_shape fs p hv] at hfail ⊢
      cases hp : fs.entry p with
      | none => exact ⟨rfl, fun q _ => rfl⟩
      | some e =>
        cases e with
        | dir => exact ⟨rfl, fun q _ => rfl⟩
        | file c =>
          cases hd : fs.entry (vaultPath ++ [filename p]) with
          | some e2 => exact ⟨rfl, fun q _ => rfl⟩
          | none =>
            rw [hp, hd] at hfail
            simp at hfail

/-- A successful `move_to_vault` leaves the vault directory in place and
occupies the vault slot of the moved file. -/
theorem move_to_vault_success_state (fs : FS) (p : Path)
    (hsucc : (move_to_vault fs p).1 = true) :
    (move_to_vault fs p).2.entry vaultPath = some Entry.dir ∧
    ((move_to_vault fs p).2.entry (vaultPath ++ [filename p])).isSome = true := by
  have hvne : vaultPath ≠ vaultPath ++ [filename p] :=
    fun h => append_singleton_ne vaultPath (filename p) h.symm
  cases hv : fs.entry vaultPath with
  | none =>
    rw [move_to_vault_of_none_shape fs p hv] at hsucc ⊢
    simp only at hsucc ⊢
    cases hp : ({ fs with entries := setEntry fs.entries vaultPath Entry.dir } : FS).entry p with
    | none =>
      rw [hp] at hsucc
      simp at hsucc
    | some e =>
      cases e with
      | dir =>
        rw [hp] at hsucc
        simp at hsucc
      | file c =>
        cases hd : ({ fs with entries := setEntry fs.entries vaultPath Entry.dir } : FS).entry
            (vaultPath ++ [filename p]) with
        | some e2 =>
          rw [hp, hd] at hsucc
          simp at hsucc
        | none =>
          have hpv : p ≠ vaultPath := by
            intro hx
            rw [hx] at hp
            rw [show ({ fs with entries := setEntry fs.entries vaultPath Entry.dir } : FS).entry
              vaultPath = some Entry.dir from lookupEntry_setEntry_self fs.entries vaultPath
                Entry.dir] at hp
            exact Entry.noConfusion (Option.some.inj hp)
          constructor
          · rw [movedState_entry _ p c vaultPath hpv.symm hvne]
            exact lookupEntry_setEntry_self fs.entries vaultPath Entry.dir
          · rw [movedState_dest]
            rfl
  | some e =>
    cases e with
    | file c =>
      rw [move_to_vault_of_file_shape fs p c hv] at hsucc
      simp at hsucc
    | dir =>
      rw [move_to_vault_of_dir_shape fs p hv] at hsucc ⊢
      cases hp : fs.entry p with
      | none =>
        rw [hp] at hsucc
        simp at hsucc
      | some e =>
        cases e with
        | dir =>
          rw [hp] at hsucc
          simp at hsucc
        | file c =>
          cases hd : fs.entry (vaultPath ++ [filename p]) with
          | some e2 =>
            rw [hp, hd] at hsucc
            simp at hsucc
          | none =>
            have hpv : p ≠ vaultPath := by
              intro hx
              rw [hx, hv] at hp
              exact Entry.noConfusion (Option.some.inj hp)
            constructor
            · rw [movedState_entry fs p c vaultPath hpv.symm hvne, hv]
            · rw [movedState_dest]
              rfl

/-- C4: the `enc_` marker check at the top of `encrypt_file` rejects an
already-marked input before any transform: the call fails and no file
entry anywhere changes (only an `ENCRYPT_FAIL` event is logged), for
every peg value and every state. -/
theorem c4_marker_rejected (fs : FS) (inp : Path) (k : Int)
    (h : has_enc_marker (filename inp) = true) :
    (encrypt_file fs inp k).1 = false ∧
    (encrypt_file fs inp k).2.entries = fs.entries := by
  unfold encrypt_file
  rw [h]
  exact ⟨rfl, rfl⟩

/-- Concrete instantiation of C4. -/
theorem c4_witness :
    (encrypt_file ⟨[(["enc_a"], Entry.file [1])], []⟩ ["enc_a"] 7).1 = false ∧
    (encrypt_file ⟨[(["enc_a"], Entry.file [1])], []⟩ ["enc_a"] 7).2.entries =
      [(["enc_a"], Entry.file [1])] :=
  c4_marker_rejected ⟨[(["enc_a"], Entry.file [1])], []⟩ ["enc_a"] 7 (by decide)

/-- C6: `move_to_vault` refuses to overwrite: when the base name is
already present in the vault the call fails and changes nothing, and of
two successive moves of files sharing a base name the first succeeds and
the second fails leaving the first vault entry untouched. -/
theorem c6_vault_no_overwrite :
    (∀ (fs : FS) (p : Path),
      fs.entry vaultPath = some Entry.dir →
      (fs.entry (vaultPath ++ [filename p])).isSome = true →
      move_to_vault fs p = (false, fs)) ∧
    (∀ (fs : FS) (p q : Path),
      filename q = filename p →
      (move_to_vault fs p).1 = true →
      move_to_vault (move_to_vault fs p).2 q = (false, (move_to_vault fs p).2)) := by
  refine ⟨move_to_vault_collision, ?_⟩
  intro fs p q hfn hsucc
  obtain ⟨hdir, hdest⟩ := move_to_vault_success_state fs p hsucc
  apply move_to_vault_collision _ q hdir
  rw [hfn]
  exact hdest

/-- Concrete instantiation of C6. -/
theorem c6_witness :
    move_to_vault ⟨[([".private_vault"], Entry.dir),
        ([".private_vault", "f"], Entry.file [9]), (["f"], Entry.file [1])], []⟩ ["f"]
      = (false, ⟨[([".private_vault"], Entry.dir),
          ([".private_vault", "f"], Entry.file [9]), (["f"], Entry.file [1])], []⟩) ∧
    move_to_vault (move_to_vault ⟨[(["f"], Entry.file [1]), (["d", "f"], Entry.file [2]),
        ([".private_vault"], Entry.dir)], []⟩ ["f"]).2 ["d", "f"]
      = (false, (move_to_vault ⟨[(["f"], Entry.file [1]), (["d", "f"], Entry.file [2]),
          ([".private_vault"], Entry.dir)], []⟩ ["f"]).2) :=
  ⟨c6_vault_no_overwrite.1 _ ["f"] (by decide) (by decide),
   c6_vault_no_overwrite.2 _ ["f"] ["d", "f"] (by decide) (by decide)⟩

theorem validate_input_file_some (fs : FS) (p : Path)
    (h : validate_input_file fs p = true) :
    ∃ c, fs.entry p = some (Entry.file c) ∧ c ≠ [] := by
  unfold validate_input_file at h
  cases he : fs.entry p with
  | none => rw [he] at h; exact absurd h (by simp)
  | some e =>
    cases e with
    | dir => rw [he] at h; exact absurd h (by simp)
    | file c =>
      refine ⟨c, rfl, ?_⟩
      rw [he] at h
      simp only [Bool.not_eq_true', beq_eq_false_iff_ne, ne_eq] at h
      exact fun hc => h (by rw [hc]; rfl)

/-- Unpack a successful `validate_encryption_params_new`. -/
theorem validate_encryption_unpack (fs : FS) (inp : Path) (k : Int)
    (h : validate_encryption_params_new fs inp k = true) :
    validate_input_file fs inp = true ∧ validate_peg_value k = true ∧
    parent_ok fs (parentDir (derivedOutput inp)) = true ∧
    isDir (fs.entry (derivedOutput inp)) = false := by
  unfold validate_encryption_params_new validate_derived_output_file
    output_target_ok at h
  simp only [Bool.and_eq_true, Bool.not_eq_true'] at h
  exact ⟨h.1.1, h.1.2, h.2.2.1, h.2.2.2⟩

/-- C9: `validate_peg_value` accepts exactly the closed interval
`[MIN_PEG, MAX_PEG] = [1, 255]` (so 0 is rejected); validated operation
parameters always carry an in-range peg when the peg check is enabled,
and `encrypt_file` with an out-of-range peg fails without touching any
file entry. -/
theorem c9_peg_validation :
    (∀ n : Int, validate_peg_value n = true ↔ MIN_PEG ≤ n ∧ n ≤ MAX_PEG) ∧
    MIN_PEG = 1 ∧ MAX_PEG = 255 ∧ validate_peg_value 0 = false ∧
    (∀ (fs : FS) (params : OperationParams) (flags : ValidationFlags),
      flags.check_pegs = true →
      validate_operation_parameters fs params flags = true →
      validate_peg_value params.pegs = true) ∧
    (∀ (fs : FS) (inp : Path) (k : Int),
      validate_peg_value k = false →
      (encrypt_file fs inp k).1 = false ∧
      (encrypt_file fs inp k).2.entries = fs.entries) := by
  refine ⟨?_, rfl, rfl, by decide, ?_, ?_⟩
  · intro n
    unfold validate_peg_value
    simp [Bool.and_eq_true, decide_eq_true_iff]
  · intro fs params flags hflag hval
    unfold validate_operation_parameters at hval
    simp only [Bool.and_eq_true] at hval
    have h3 := hval.2
    rw [hflag] at h3
    simpa using h3
  · intro fs inp k hk
    unfold encrypt_file
    cases hm : has_enc_marker (filename inp) with
    | true => exact ⟨rfl, rfl⟩
    | false =>
      have hv : validate_encryption_params_new fs inp k = false := by
        unfold validate_encryption_params_new
        rw [hk]
        simp
      rw [hv]
      exact ⟨rfl, rfl⟩

/-- Concrete instantiation of C9. -/
theorem c9_witness :
    validate_peg_value 128 = true ∧ validate_peg_value 256 = false ∧
    validate_peg_value 1 = true ∧ validate_peg_value 255 = true ∧
    (encrypt_file ⟨[(["a"], Entry.file [1])], []⟩ ["a"] 0).1 = false :=
  ⟨(c9_peg_validation.1 128).mpr (by decide),
   by
     have h := (c9_peg_validation.1 256)
     cases hb : validate_peg_value 256 with
     | false => rfl
     | true => exact absurd (h.mp hb) (by decide),
   (c9_peg_validation.1 1).mpr (by decide),
   (c9_peg_validation.1 255).mpr (by decide),
   (c9_peg_validation.2.2.2.2.2 ⟨[(["a"], Entry.file [1])], []⟩ ["a"] 0 (by decide)).1⟩

/-- State after the core transform of `encrypt_file` wrote the derived
output and logged the `ENCRYPT` operation. -/
def encState (fs : FS) (inp : Path) (k : Int) (c : List Nat) : FS :=
  (fs.setFile (derivedOutput inp) (process_chunks k true c)).logOp
    "ENCRYPT" inp (derivedOutput inp) k

theorem process_file_core_enc (fs : FS) (inp : Path) (k : Int) (c : List Nat)
    (hin : fs.entry inp = some (Entry.file c))
    (hpo : parent_ok fs (parentDir (derivedOutput inp)) = true)
    (hod : isDir (fs.entry (derivedOutput inp)) = false) :
    process_file_core fs inp (derivedOutput inp) k true = (true, encState fs inp k c) := by
  rw [process_file_core_spec fs inp (derivedOutput inp) k true c hin hpo hod
    (derivedOutput_ne inp)]
  rfl

theorem encState_entry_inp (fs : FS) (inp : Path) (k : Int) (c : List Nat) :
    (encState fs inp k c).entry inp = fs.entry inp := by
  unfold encState
  rw [FS.entry_logOp, FS.entry_setFile_ne fs (derivedOutput inp) inp _
    (fun h => derivedOutput_ne inp h.symm)]

theorem encState_entry_out (fs : FS) (inp : Path) (k : Int) (c : List Nat) :
    (encState fs inp k c).entry (derivedOutput inp) =
      some (Entry.file (process_chunks k true c)) := by
  unfold encState
  rw [FS.entry_logOp, FS.entry_setFile_self]

/-- After the marker check and validation pass, `encrypt_file` runs the
core transform and then attempts the vault move, downgrading a move
failure to a logged warning. -/
theorem encrypt_file_shape (fs : FS) (inp : Path) (k : Int) (c : List Nat)
    (hmk : has_enc_marker (filename inp) = false)
    (hval : validate_encryption_params_new fs inp k = true)
    (hin : fs.entry inp = some (Entry.file c)) :
    encrypt_file fs inp k =
      (if !(move_to_vault (encState fs inp k c) inp).1 then
        (true, (move_to_vault (encState fs inp k c) inp).2.logEvent "VAULT_FAIL"
          ("Failed to move " ++ pathToString inp ++ " to vault after encryption to " ++
            pathToString (derivedOutput inp)))
       else (true, (move_to_vault (encState fs inp k c) inp).2)) := by
  obtain ⟨hvi, hk, hpo, hod⟩ := validate_encryption_unpack fs inp k hval
  have hcore := process_file_core_enc fs inp k c hin hpo hod
  unfold encrypt_file
  rw [if_neg (by rw [hmk]; simp), if_neg (by rw [hval]; simp)]
  simp only [hcore]
  rw [if_neg (by simp)]

/-- C5: when the transform of `encrypt_file` succeeds but the subsequent
`move_to_vault` fails, the call still returns success, a `VAULT_FAIL`
event is the last log line, and the original input file entry is exactly
what it was before the call. -/
theorem c5_vault_fail_downgraded (fs : FS) (inp : Path) (k : Int)
    (hmk : has_enc_marker (filename inp) = false)
    (hval : validate_encryption_params_new fs inp k = true)
    (hcore : (process_file_core fs inp (derivedOutput inp) k true).1 = true)
    (hmv : (move_to_vault (process_file_core fs inp (derivedOutput inp) k true).2 inp).1
      = false) :
    (encrypt_file fs inp k).1 = true ∧
    (encrypt_file fs inp k).2.entry inp = fs.entry inp ∧
    (encrypt_file fs inp k).2.log.getLast? =
      some (LogLine.event "VAULT_FAIL"
        ("Failed to move " ++ pathToString inp ++ " to vault after encryption to " ++
          pathToString (derivedOutput inp))) := by
  obtain ⟨hvi, hk, hpo, hod⟩ := validate_encryption_unpack fs inp k hval
  obtain ⟨c, hin, hcne⟩ := validate_input_file_some fs inp hvi
  have hcoreEq := process_file_core_enc fs inp k c hin hpo hod
  rw [hcoreEq] at hmv
  have hmv2 : (move_to_vault (encState fs inp k c) inp).1 = false := hmv
  have hfs1inp : (encState fs inp k c).entry inp = fs.entry inp :=
    encState_entry_inp fs inp k c
  rw [encrypt_file_shape fs inp k c hmk hval hin, hmv2, if_pos (by simp)]
  refine ⟨rfl, ?_, ?_⟩
  · rw [FS.entry_logEvent]
    have hpres := (move_to_vault_fail_state (encState fs inp k c) inp hmv2).2 inp
      (Or.inl (by rw [hfs1inp, hin]; simp))
    rw [hpres, hfs1inp]
  · unfold FS.logEvent
    simp only
    rw [List.getLast?_concat]

/-- Concrete instantiation of C5: the vault slot is already occupied, so
the move fails after a successful transform. -/
theorem c5_witness :
    (encrypt_file ⟨[(["f"], Entry.file [1]), ([".private_vault"], Entry.dir),
        ([".private_vault", "f"], Entry.file [9])], []⟩ ["f"] 5).1 = true ∧
    (encrypt_file ⟨[(["f"], Entry.file [1]), ([".private_vault"], Entry.dir),
        ([".private_vault", "f"], Entry.file [9])], []⟩ ["f"] 5).2.entry ["f"]
      = some (Entry.file [1]) ∧
    (encrypt_file ⟨[(["f"], Entry.file [1]), ([".private_vault"], Entry.dir),
        ([".private_vault", "f"], Entry.file [9])], []⟩ ["f"] 5).2.log.getLast? =
      some (LogLine.event "VAULT_FAIL"
        ("Failed to move " ++ pathToString ["f"] ++ " to vault after encryption to " ++
          pathToString (derivedOutput ["f"]))) :=
  c5_vault_fail_downgraded ⟨[(["f"], Entry.file [1]), ([".private_vault"], Entry.dir),
      ([".private_vault", "f"], Entry.file [9])], []⟩ ["f"] 5
    (by decide) (by decide) (by decide) (by decide)

/-- C10: for a valid, unmarked input whose derived output `enc_<name>`
already exists as a regular file, `encrypt_file` succeeds and silently
truncates and overwrites that output with the new ciphertext — no error
or collision check guards the overwrite. -/
theorem c10_overwrites_existing_output (fs : FS) (inp : Path) (k : Int)
    (x oldc : List Nat)
    (hmk : has_enc_marker (filename inp) = false)
    (hin : fs.entry inp = some (Entry.file x)) (hx : x ≠ [])
    (hk : validate_peg_value k = true)
    (hold : fs.entry (derivedOutput inp) = some (Entry.file oldc))
    (hpo : parent_ok fs (parentDir (derivedOutput inp)) = true) :
    (encrypt_file fs inp k).1 = true ∧
    (encrypt_file fs inp k).2.entry (derivedOutput inp) =
      some (Entry.file (process_content_caesar x k true)) := by
  have hod : isDir (fs.entry (derivedOutput inp)) = false := by rw [hold]; rfl
  have hvi : validate_input_file fs inp = true := by
    unfold validate_input_file
    rw [hin]
    simp only [Bool.not_eq_true', beq_eq_false_iff_ne, ne_eq, List.length_eq_zero]
    exact hx
  have hval : validate_encryption_params_new fs inp k = true := by
    unfold validate_encryption_params_new validate_derived_output_file output_target_ok
    rw [hvi, hk, hpo, hod]
    simp [derivedOutput_ne inp]
  have hout1 : (encState fs inp k x).entry (derivedOutput inp) =
      some (Entry.file (process_chunks k true x)) := encState_entry_out fs inp k x
  rw [encrypt_file_shape fs inp k x hmk hval hin]
  cases hmvr : (move_to_vault (encState fs inp k x) inp).1 with
  | false =>
    rw [if_pos (by simp)]
    refine ⟨rfl, ?_⟩
    rw [FS.entry_logEvent]
    have hpres := (move_to_vault_fail_state (encState fs inp k x) inp hmvr).2
      (derivedOutput inp) (Or.inl (by rw [hout1]; simp))
    rw [hpres, hout1, process_chunks_eq]
    rfl
  | true =>
    rw [if_neg (by simp)]
    refine ⟨rfl, ?_⟩
    have hpres := move_to_vault_preserves_entry (encState fs inp k x) inp
      (derivedOutput inp) (derivedOutput_ne inp)
      (fun h => vaultDest_ne_derivedOutput inp h.symm)
      (Or.inl (by rw [hout1]; simp))
    rw [hpres, hout1, process_chunks_eq]
    rfl

/-- Concrete instantiation of C10: `enc_f` already exists with old
content and is silently replaced. -/
theorem c10_witness :
    (encrypt_file ⟨[(["f"], Entry.file [1, 2]), (["enc_f"], Entry.file [42])], []⟩
      ["f"] 5).1 = true ∧
    (encrypt_file ⟨[(["f"], Entry.file [1, 2]), (["enc_f"], Entry.file [42])], []⟩
      ["f"] 5).2.entry ["enc_f"]
      = some (Entry.file (process_content_caesar [1, 2] 5 true)) :=
  c10_overwrites_existing_output
    ⟨[(["f"], Entry.file [1, 2]), (["enc_f"], Entry.file [42])], []⟩ ["f"] 5 [1, 2] [42]
    (by decide) (by decide) (by decide) (by decide) (by decide) (by decide)

theorem retrieve_of_ensure (fs fs0 : FS) (name : String) (dest : Path)
    (hE : ensure_private_vault_exists fs = (true, fs0)) :
    retrieve_from_vault fs name dest =
      (match fs0.entry (vaultPath ++ [name]) with
       | some (Entry.file c) =>
         if validate_destination_path fs0 dest name then
           (true, (fs0.setFile dest c).logEvent "VAULT_RETRIEVE"
             (name ++ " retrieved to " ++ pathToString dest))
         else (false, fs0)
       | _ => (false, fs0)) := by
  unfold retrieve_from_vault
  rw [hE]
  rfl

theorem retrieve_of_ensure_false (fs fs0 : FS) (name : String) (dest : Path)
    (hE : ensure_private_vault_exists fs = (false, fs0)) :
    retrieve_from_vault fs name dest = (false, fs0) := by
  unfold retrieve_from_vault
  rw [hE]
  rfl

theorem validate_destination_ne (fs : FS) (dest : Path) (name : String) (e : Entry)
    (hsrc : fs.entry (vaultPath ++ [name]) = some e)
    (hvd : validate_destination_path fs dest name = true) :
    dest ≠ vaultPath ++ [name] := by
  intro heq
  subst heq
  unfold validate_destination_path at hvd
  simp [hsrc] at hvd

theorem retrieve_core (fs fs0 : FS) (name : String) (dest : Path)
    (hE : ensure_private_vault_exists fs = (true, fs0))
    (hpre : fs0.entry (vaultPath ++ [name]) = fs.entry (vaultPath ++ [name]))
    (h : (retrieve_from_vault fs name dest).1 = true) :
    (retrieve_from_vault fs name dest).2.entry (vaultPath ++ [name]) =
      fs.entry (vaultPath ++ [name]) ∧
    (retrieve_from_vault fs name dest).2.entry dest = fs.entry (vaultPath ++ [name]) := by
  cases hsrc : fs0.entry (vaultPath ++ [name]) with
  | none =>
    have hres : retrieve_from_vault fs name dest = (false, fs0) := by
      rw [retrieve_of_ensure fs fs0 name dest hE, hsrc]
    rw [hres] at h
    simp at h
  | some e =>
    cases e with
    | dir =>
      have hres : retrieve_from_vault fs name dest = (false, fs0) := by
        rw [retrieve_of_ensure fs fs0 name dest hE, hsrc]
      rw [hres] at h
      simp at h
    | file c =>
      cases hvd : validate_destination_path fs0 dest name with
      | false =>
        have hres : retrieve_from_vault fs name dest = (false, fs0) := by
          rw [retrieve_of_ensure fs fs0 name dest hE, hsrc, hvd]
          rfl
        rw [hres] at h
        simp at h
      | true =>
        have hres : retrieve_from_vault fs name dest =
            (true, (fs0.setFile dest c).logEvent "VAULT_RETRIEVE"
              (name ++ " retrieved to " ++ pathToString dest)) := by
          rw [retrieve_of_ensure fs fs0 name dest hE, hsrc, hvd]
          rfl
        rw [hres]
        have hne : dest ≠ vaultPath ++ [name] :=
          validate_destination_ne fs0 dest name (Entry.file c) hsrc hvd
        constructor
        · rw [FS.entry_logEvent, FS.entry_setFile_ne fs0 dest (vaultPath ++ [name]) c
            (fun hq => hne hq.symm)]
          exact hpre
        · rw [FS.entry_logEvent, FS.entry_setFile_self, ← hpre, hsrc]

/-- C7: a successful `retrieve_from_vault` leaves the vault entry in
place with unchanged content (copy-out, not move-out) and makes the
destination a byte-for-byte copy of it, overwriting whatever was at the
destination before. -/
theorem c7_retrieve_copies (fs : FS) (name : String) (dest : Path)
    (h : (retrieve_from_vault fs name dest).1 = true) :
    (retrieve_from_vault fs name dest).2.entry (vaultPath ++ [name]) =
      fs.entry (vaultPath ++ [name]) ∧
    (retrieve_from_vault fs name dest).2.entry dest = fs.entry (vaultPath ++ [name]) := by
  cases hv : fs.entry vaultPath with
  | none =>
    refine retrieve_core fs _ name dest (ensure_vault_of_none fs hv) ?_ h
    exact lookupEntry_setEntry_ne fs.entries vaultPath (vaultPath ++ [name]) Entry.dir
      (fun hq => append_singleton_ne vaultPath name hq)
  | some e =>
    cases e with
    | dir => exact retrieve_core fs fs name dest (ensure_vault_of_dir fs hv) rfl h
    | file c =>
      rw [retrieve_of_ensure_false fs fs name dest (ensure_vault_of_file fs c hv)] at h
      simp at h

/-- Concrete instantiation of C7: retrieval over an existing destination
file overwrites it while the vault copy survives. -/
theorem c7_witness :
    (retrieve_from_vault ⟨[([".private_vault"], Entry.dir),
        ([".private_vault", "g"], Entry.file [3, 4]), (["out"], Entry.file [9])], []⟩
      "g" ["out"]).2.entry [".private_vault", "g"] = some (Entry.file [3, 4]) ∧
    (retrieve_from_vault ⟨[([".private_vault"], Entry.dir),
        ([".private_vault", "g"], Entry.file [3, 4]), (["out"], Entry.file [9])], []⟩
      "g" ["out"]).2.entry ["out"] = some (Entry.file [3, 4]) :=
  c7_retrieve_copies ⟨[([".private_vault"], Entry.dir),
      ([".private_vault", "g"], Entry.file [3, 4]), (["out"], Entry.file [9])], []⟩
    "g" ["out"] (by decide)

/-- C8 fails on the code: `decrypt_file` on a missing input returns
failure yet appends nothing to the log (cipher_utils.cpp:148-151 prints
to stderr only), so not every failure writes a log record. -/
theorem c8_counterexample :
    (decrypt_file ⟨[], []⟩ ["missing"] ["out"] 5).1 = false ∧
    (decrypt_file ⟨[], []⟩ ["missing"] ["out"] 5).2.log = [] := by
  exact ⟨rfl, rfl⟩

/-- C8 (amended): only some failure paths log.  The `enc_` marker
rejection in `encrypt_file` appends an `ENCRYPT_FAIL` event (and a
post-transform vault-move failure appends `VAULT_FAIL`, see C5), but a
validation failure in `encrypt_file`, any `process_file_core` failure
(hence `decrypt_file`), and any `move_to_vault` failure return with the
log exactly as it was. -/
theorem c8_amended_logging :
    (∀ (fs : FS) (inp : Path) (k : Int),
      has_enc_marker (filename inp) = true →
      (encrypt_file fs inp k).2.log =
        fs.log ++ [LogLine.event "ENCRYPT_FAIL"
          ("Attempt to encrypt already encrypted file: " ++ pathToString inp)]) ∧
    (∀ (fs : FS) (inp : Path) (k : Int),
      has_enc_marker (filename inp) = false →
      validate_encryption_params_new fs inp k = false →
      (encrypt_file fs inp k).1 = false ∧ (encrypt_file fs inp k).2.log = fs.log) ∧
    (∀ (fs : FS) (i o : Path) (k : Int) (em : Bool),
      (process_file_core fs i o k em).1 = false →
      (process_file_core fs i o k em).2.log = fs.log) ∧
    (∀ (fs : FS) (p : Path),
      (move_to_vault fs p).1 = false →
      (move_to_vault fs p).2.log = fs.log) := by
  refine ⟨?_, ?_, ?_, ?_⟩
  · intro fs inp k hm
    unfold encrypt_file
    rw [hm]
    rfl
  · intro fs inp k hm hv
    unfold encrypt_file
    rw [if_neg (by rw [hm]; simp), if_pos (by rw [hv]; rfl)]
    exact ⟨rfl, rfl⟩
  · intro fs i o k em hfail
    unfold process_file_core at hfail ⊢
    cases hi : fs.entry i with
    | none => rfl
    | some e =>
      cases e with
      | dir => rfl
      | file c =>
        rw [hi] at hfail
        cases hc : (parent_ok fs (parentDir o) && !isDir (fs.entry o)) with
        | true =>
          rw [hc] at hfail
          simp at hfail
        | false => rfl
  · intro fs p hfail
    exact (move_to_vault_fail_state fs p hfail).1

/-- Concrete instantiation of the amended C8. -/
theorem c8_amended_witness :
    (encrypt_file ⟨[], []⟩ ["enc_b"] 2).2.log =
      [LogLine.event "ENCRYPT_FAIL"
        ("Attempt to encrypt already encrypted file: " ++ pathToString ["enc_b"])] ∧
    (encrypt_file ⟨[], []⟩ ["b"] 2).2.log = [] ∧
    (process_file_core ⟨[], []⟩ ["b"] ["c"] 2 true).2.log = [] ∧
    (move_to_vault ⟨[([".private_vault"], Entry.dir)], []⟩ ["gone"]).2.log = [] :=
  ⟨c8_amended_logging.1 ⟨[], []⟩ ["enc_b"] 2 (by decide),
   (c8_amended_logging.2.1 ⟨[], []⟩ ["b"] 2 (by decide) (by decide)).2,
   c8_amended_logging.2.2.1 ⟨[], []⟩ ["b"] ["c"] 2 true (by decide),
   c8_amended_logging.2.2.2 ⟨[([".private_vault"], Entry.dir)], []⟩ ["gone"] (by decide)⟩

end CipherUtils
